import Mathlib

/-!
# Verification of the Gemini-Watermark-Remover core

Shallow embedding of the repository's core subsystems and proofs of the
specification's claims about them:

* `calculateWatermarkRegion` — the region calculator (lives in the
  repository's `utils.js`, modelled from the spec, see its doc comment);
* the tensor codec `preprocessImage` / `postprocessImage`
  (`image-processor.js`);
* the compositor `composeFinalImage` / `createFeatheredBlend`
  (`image-processor.js`);
* the `BatchProcessor` queue (`batch-processor.js`).

JavaScript numbers are modelled as exact rationals (`ℚ`) where the code
performs only field operations, and as reals (`ℝ`) where `Math.sqrt`
enters the computation.  Byte buffers (`Uint8ClampedArray`) are modelled
as lists / functions into `ℕ` together with the clamping performed on
assignment.
-/

namespace GeminiWatermark

/-- Constant `CONFIG.WATERMARK.HEIGHT_RATIO = WIDTH_RATIO = 0.15` (config.js): the
narrow ratio used for the inference mask. -/
def narrowRatio : ℚ := 15 / 100

/-- Constant `CONFIG.WATERMARK.EXTENDED_RATIO = 0.16` (config.js): the wider ratio
used for composition. -/
def extendedRatio : ℚ := 16 / 100

/-- A rectangle `{x, y, width, height}` in pixel coordinates. -/
structure Region where
  x : ℕ
  y : ℕ
  width : ℕ
  height : ℕ
  deriving DecidableEq, Repr

/-- Modelled from the spec: `calculateWatermarkRegion` is defined in the
repository's `utils.js`, which is not among the provided sources (only its
callers are).  Spec §4.1: given `(width, height, ratio)` the region is
anchored at the bottom-right corner, `regionWidth = round(width * ratio)`,
`regionHeight = round(height * ratio)`, `x = width - regionWidth`,
`y = height - regionHeight`, clamped into image bounds (never negative or
out of range).  Rounding is JavaScript `Math.round`, i.e. half-up, which
matches Mathlib's `round`. -/
def calculateWatermarkRegion (width height : ℕ) (ratio : ℚ) : Region :=
  let rw := min (round ((width : ℚ) * ratio)).toNat width
  let rh := min (round ((height : ℚ) * ratio)).toNat height
  { x := width - rw, y := height - rh, width := rw, height := rh }

/-- Helper used to embed buffer-filling loops: concatenates the chunks
`f i, f (i+1), …` for `fuel` successive indices, in loop order. -/
def buildRows {α : Type} (f : ℕ → List α) : ℕ → ℕ → List α
  | _, 0 => []
  | i, Nat.succ fuel => f i ++ buildRows f (i + 1) fuel

/-!
## TensorCodec: `preprocessImage` (image-processor.js, lines 14–49)

The mask buffer is filled by a double loop over `y` then `x`, writing
`maskData[y*width + x] = (y >= region.y && x >= region.x) ? 1.0 : 0.0`,
where `region = calculateWatermarkRegion(width, height)` with the narrow
(default) ratio.
-/

/-- The mask tensor buffer of `preprocessImage`: row-major, `1.0` on the
bottom-right quadrant of the watermark region's top-left corner, `0.0`
elsewhere. -/
def preprocessMask (width height : ℕ) : List ℚ :=
  let region := calculateWatermarkRegion width height narrowRatio
  buildRows
    (fun y => (List.range width).map
      (fun x => if region.y ≤ y ∧ region.x ≤ x then (1 : ℚ) else 0))
    0 height

/-- The image tensor buffer of `preprocessImage`: three contiguous
channel planes (R, G, B), each in row-major pixel order, each value the
byte value divided by 255.  `img` is the flat RGBA input buffer
(`imageData.data`), indexed as `img (4*i + c)`. -/
def imageTensorData (img : ℕ → ℕ) (width height : ℕ) : List ℚ :=
  ((List.range (width * height)).map (fun i => (img (4 * i) : ℚ) / 255)) ++
  ((List.range (width * height)).map (fun i => (img (4 * i + 1) : ℚ) / 255)) ++
  ((List.range (width * height)).map (fun i => (img (4 * i + 2) : ℚ) / 255))

/-!
## TensorCodec: `postprocessImage` (image-processor.js, lines 58–90)
-/

/-- Number of loop iterations of the range-detection loop:
`for (i = 0; i < Math.min(1000, data.length / 3); i++)` with JavaScript
float division, i.e. `min 1000 ⌈len/3⌉` iterations. -/
def sampleCount (len : ℕ) : ℕ := min 1000 ((len + 2) / 3)

/-- Value of `maxVal` after the range-detection loop: the maximum absolute value of
the first `sampleCount data.length` entries of the tensor, starting from
`0`. -/
def maxAbsSample (data : List ℚ) : ℚ :=
  ((data.take (sampleCount data.length)).map (fun v => |v|)).foldl max 0

/-- Clamp `Math.min(255, Math.max(0, ·))` applied to a rounded channel value
(the subsequent `Uint8ClampedArray` store does not change an already
clamped integer). -/
def clampByte (z : ℤ) : ℕ := (min 255 (max 0 z)).toNat

/-- One RGBA chunk written by the output loop of `postprocessImage` for
pixel `i`: channels read from the three planes at `i`, `hw + i`,
`2*hw + i`, multiplied by 255 when the tensor was classified as
normalized, rounded (JavaScript `Math.round` = half-up, Mathlib `round`),
clamped to `[0, 255]`; alpha is 255. -/
def postChunk (data : List ℚ) (hw : ℕ) (normalized : Bool) (i : ℕ) : List ℕ :=
  let denorm : ℚ → ℚ := fun v => if normalized then v * 255 else v
  [clampByte (round (denorm (data.getD i 0))),
   clampByte (round (denorm (data.getD (hw + i) 0))),
   clampByte (round (denorm (data.getD (2 * hw + i) 0))),
   255]

/-- The flat RGBA output buffer of `postprocessImage`. -/
def postprocessImage (data : List ℚ) (width height : ℕ) : List ℕ :=
  buildRows (postChunk data (width * height) (maxAbsSample data ≤ 2)) 0
    (width * height)

/-!
## Compositor: `composeFinalImage` / `createFeatheredBlend`
(image-processor.js, lines 101–239)

`Math.sqrt` forces the per-pixel distance into `ℝ`, so the blend is
modelled over the reals (`noncomputable`); every branch condition used by
the claims is restated over `ℕ`, where it is decidable.
-/

/-- One RGBA pixel; `ImageData` stores bytes, so channel values of an
actual image lie in `[0, 255]` (stated as hypotheses where needed). -/
structure Pixel where
  r : ℕ
  g : ℕ
  b : ℕ
  a : ℕ
  deriving DecidableEq, Repr

/-- The squared distance from the core region's leading (top/left) edges:
`distX = x < cX ? cX - x : 0` and likewise for `y` (truncated `ℕ`
subtraction), then `distX² + distY²`. -/
def distSqFromCore (coreOffsetX coreOffsetY x y : ℕ) : ℕ :=
  (coreOffsetX - x) ^ 2 + (coreOffsetY - y) ^ 2

/-- Distance `distFromCore = Math.sqrt(distX*distX + distY*distY)`
(image-processor.js, line 213). -/
noncomputable def distFromCore (coreOffsetX coreOffsetY x y : ℕ) : ℝ :=
  Real.sqrt (distSqFromCore coreOffsetX coreOffsetY x y : ℕ)

/-- The blend weight of `createFeatheredBlend` (image-processor.js,
lines 216–228) as a function of `distFromCore`: `1` when the distance is
`≤ 0`, `0` when it is `≥ featherSize`, else the smoothstep
`1 − t²(3 − 2t)` with `t = dist / featherSize`. -/
noncomputable def featherAlpha (featherSize dist : ℝ) : ℝ :=
  if dist ≤ 0 then 1
  else if featherSize ≤ dist then 0
  else 1 - dist / featherSize * (dist / featherSize) *
    (3 - 2 * (dist / featherSize))

/-- One blended channel:
`Math.round(orig * (1 - alpha) + proc * alpha)` stored into a
`Uint8ClampedArray` cell. -/
noncomputable def blendChannel (orig proc : ℕ) (alpha : ℝ) : ℕ :=
  clampByte (round ((orig : ℝ) * (1 - alpha) + (proc : ℝ) * alpha))

/-- The pixel written by `createFeatheredBlend` at local coordinates
`(x, y)` of the expanded region: RGB blended with the feather weight,
alpha forced to 255. -/
noncomputable def createFeatheredBlend (original processed : ℕ → ℕ → Pixel)
    (featherSize coreOffsetX coreOffsetY x y : ℕ) : Pixel :=
  let alpha := featherAlpha (featherSize : ℝ)
    (distFromCore coreOffsetX coreOffsetY x y)
  { r := blendChannel (original x y).r (processed x y).r alpha,
    g := blendChannel (original x y).g (processed x y).g alpha,
    b := blendChannel (original x y).b (processed x y).b alpha,
    a := 255 }

/-- The final raster of `composeFinalImage` at global pixel `(X, Y)`:
the original image everywhere except inside the feather-expanded extended
watermark region, where the original and the resampled processed patch
(`resampled`, in patch-local coordinates — the output of the delegated
canvas rescale of the processed image's expanded region) are feather
blended.  `feather` is the effective feather size
(`featherSize ?? CONFIG.WATERMARK.FEATHER_SIZE`). -/
noncomputable def composeFinalImage (origWidth origHeight feather : ℕ)
    (original : ℕ → ℕ → Pixel) (resampled : ℕ → ℕ → Pixel)
    (X Y : ℕ) : Pixel :=
  let origRegion := calculateWatermarkRegion origWidth origHeight extendedRatio
  let expandedX := origRegion.x - feather
  let expandedY := origRegion.y - feather
  let expandedWidth := min (origWidth - expandedX) (origRegion.width + feather)
  let expandedHeight :=
    min (origHeight - expandedY) (origRegion.height + feather)
  if expandedX ≤ X ∧ X < expandedX + expandedWidth ∧
      expandedY ≤ Y ∧ Y < expandedY + expandedHeight then
    createFeatheredBlend (fun x y => original (expandedX + x) (expandedY + y))
      resampled feather (origRegion.x - expandedX) (origRegion.y - expandedY)
      (X - expandedX) (Y - expandedY)
  else original X Y

/-!
## BatchQueue: `BatchProcessor` (batch-processor.js)

The injected async processing function is modelled by an outcome oracle
`outcomes : ℕ → Except String String` giving, for each queue position,
either the result payload (standing for `{dataUrl, originalDataUrl}`) or
the thrown failure's message.  External `cancel()` calls arriving while
the loop is awaiting are modelled by a schedule `cancelAt : ℕ → Bool`
(`cancelAt i` = the flag was raised before the check at iteration `i`).
`generateId` (timestamp + random suffix) is determinised as a fresh
counter `nextId`; the write-only field `currentIndex` is omitted.
-/

/-- Enum `BatchItemStatus` (batch-processor.js, lines 16–22). -/
inductive BatchItemStatus where
  | queued
  | processing
  | complete
  | error
  | cancelled
  deriving DecidableEq, Repr

/-- A queue entry as created by `addFiles` (batch-processor.js,
lines 66–77); the `thumbnail` field is never read and omitted. -/
structure BatchItem where
  id : ℕ
  fileName : String
  fileSize : ℕ
  status : BatchItemStatus
  result : Option String
  error : Option String
  deriving DecidableEq, Repr

instance : Inhabited BatchItem :=
  ⟨{ id := 0, fileName := "", fileSize := 0, status := .queued,
     result := none, error := none }⟩

/-- A submitted file (name and size are all the processor reads). -/
structure BatchFile where
  name : String
  size : ℕ
  deriving DecidableEq, Repr

/-- The result of the external validator collaborator
`validateImageFile : {valid : bool, error? : string}` (lives in the
repository's `utils.js`, not among the provided sources; modelled as an
abstract collaborator per spec §6). -/
structure Validation where
  valid : Bool
  error : Option String
  deriving DecidableEq, Repr

/-- The mutable state of a `BatchProcessor`. -/
structure BatchState where
  queue : List BatchItem
  isProcessing : Bool
  isCancelled : Bool
  nextId : ℕ
  deriving Repr

/-- The queue entry `addFiles` creates for one submitted file
(batch-processor.js, lines 66–77): `QUEUED` when the validator accepts it,
otherwise directly `ERROR` carrying the validator's message. -/
def admittedItem (validate : BatchFile → Validation) (nextId : ℕ)
    (f : BatchFile) : BatchItem :=
  { id := nextId, fileName := f.name, fileSize := f.size,
    status := if (validate f).valid then .queued else .error,
    result := none,
    error := if (validate f).valid then none else (validate f).error }

/-- Operation `addFiles` (batch-processor.js, lines 59–93): every file is admitted;
an invalid file enters directly in `ERROR` state carrying the validator's
message, a valid one in `QUEUED` state; returns the assigned ids in
submission order. -/
def addFiles (validate : BatchFile → Validation) :
    BatchState → List BatchFile → List ℕ × BatchState
  | s, [] => ([], s)
  | s, f :: fs =>
    let item := admittedItem validate s.nextId f
    let rest := addFiles validate
      { s with queue := s.queue ++ [item], nextId := s.nextId + 1 } fs
    (item.id :: rest.1, rest.2)

/-- The per-item outcome of one loop body (batch-processor.js,
lines 183–205): success sets `COMPLETE` and stores the result, a thrown
failure sets `ERROR` and stores the failure's message. -/
def finishItem (outcome : Except String String) (it : BatchItem) : BatchItem :=
  match outcome with
  | .ok res => { it with status := .complete, result := some res }
  | .error e => { it with status := .error, error := some e }

/-- Marking one still-`QUEUED` item `CANCELLED` (batch-processor.js,
lines 148–159). -/
def cancelMark (it : BatchItem) : BatchItem :=
  if it.status = .queued then { it with status := .cancelled } else it

/-- Marking every still-`QUEUED` item from position `i` on `CANCELLED`
(the loop `for (let j = i; j < this.queue.length; j++)`). -/
def cancelFrom : List BatchItem → ℕ → List BatchItem
  | [], _ => []
  | it :: rest, 0 => cancelMark it :: cancelFrom rest 0
  | it :: rest, Nat.succ n => it :: cancelFrom rest n

/-- The processing loop of `start` (batch-processor.js, lines 145–212),
final queue: at iteration `i` the (possibly newly raised) cancellation
flag is checked; if set, the remaining `QUEUED` items are cancelled and
the loop breaks; otherwise a still-`QUEUED` item `i` is finished
according to its outcome and the loop advances. -/
def runAux (outcomes : ℕ → Except String String) (cancelAt : ℕ → Bool) :
    ℕ → ℕ → Bool → List BatchItem → List BatchItem
  | 0, _, _, q => q
  | Nat.succ fuel, i, cancelled, q =>
    if cancelled || cancelAt i then cancelFrom q i
    else
      match q[i]? with
      | none => q
      | some it =>
        if it.status = .queued then
          runAux outcomes cancelAt fuel (i + 1) (cancelled || cancelAt i)
            (q.set i (finishItem (outcomes i) it))
        else
          runAux outcomes cancelAt fuel (i + 1) (cancelled || cancelAt i) q

/-- The same loop at status-mutation granularity: the list of successive
queue snapshots, one per mutation (`status = PROCESSING`, then the
item's terminal update; or the cancellation sweep). -/
def runTraceAux (outcomes : ℕ → Except String String) (cancelAt : ℕ → Bool) :
    ℕ → ℕ → Bool → List BatchItem → List (List BatchItem)
  | 0, _, _, _ => []
  | Nat.succ fuel, i, cancelled, q =>
    if cancelled || cancelAt i then [cancelFrom q i]
    else
      match q[i]? with
      | none => []
      | some it =>
        if it.status = .queued then
          (q.set i { it with status := .processing }) ::
          (q.set i (finishItem (outcomes i) it)) ::
          runTraceAux outcomes cancelAt fuel (i + 1) (cancelled || cancelAt i)
            (q.set i (finishItem (outcomes i) it))
        else
          runTraceAux outcomes cancelAt fuel (i + 1) (cancelled || cancelAt i) q

/-- Operation `start` (batch-processor.js, lines 136–220): no-op under the
re-entrancy guard; otherwise resets the cancellation flag
(`this.isCancelled = false`) and runs the loop over the queue. -/
def start (s : BatchState) (outcomes : ℕ → Except String String)
    (cancelAt : ℕ → Bool) : BatchState :=
  if s.isProcessing then s
  else
    { s with
      queue := runAux outcomes cancelAt s.queue.length 0 false s.queue,
      isProcessing := false,
      isCancelled := false }

/-- The status-mutation trace of one `start` invocation. -/
def startTrace (s : BatchState) (outcomes : ℕ → Except String String)
    (cancelAt : ℕ → Bool) : List (List BatchItem) :=
  if s.isProcessing then []
  else runTraceAux outcomes cancelAt s.queue.length 0 false s.queue

/-- Operation `cancel` (batch-processor.js, lines 225–227). -/
def cancel (s : BatchState) : BatchState := { s with isCancelled := true }

/-- One entry of `getResults` (batch-processor.js, lines 125–130). -/
structure BatchResult where
  id : ℕ
  fileName : String
  payload : String
  deriving DecidableEq, Repr

/-- Operation `getResults` (batch-processor.js, lines 122–131): the `COMPLETE`
items with a result, in queue order, mapped to their payloads. -/
def getResults (q : List BatchItem) : List BatchResult :=
  (q.filter (fun it => decide (it.status = .complete) && it.result.isSome)).map
    (fun it => { id := it.id, fileName := it.fileName,
                 payload := it.result.getD "" })

/-- Statuses `COMPLETE`, `ERROR` and `CANCELLED` are the terminal statuses. -/
def isTerminal (s : BatchItemStatus) : Bool :=
  match s with
  | .complete => true
  | .error => true
  | .cancelled => true
  | _ => false

/-- The status transitions the spec admits: stay put,
`QUEUED → PROCESSING`, `PROCESSING → COMPLETE`, `PROCESSING → ERROR`, or
`QUEUED → CANCELLED`. -/
def allowedEdge (s t : BatchItemStatus) : Prop :=
  t = s ∨ (s = .queued ∧ t = .processing) ∨
  (s = .processing ∧ (t = .complete ∨ t = .error)) ∨
  (s = .queued ∧ t = .cancelled)

/-- Two successive queue snapshots are related by per-item allowed
transitions (and equal length). -/
def stepOK (q q2 : List BatchItem) : Prop :=
  q2.length = q.length ∧
  ∀ j, allowedEdge (q.getD j default).status (q2.getD j default).status

/-- An item the loop has settled: terminal, and carrying a result when
`COMPLETE`. -/
def settledItem (it : BatchItem) : Prop :=
  isTerminal it.status = true ∧ (it.status = .complete → it.result.isSome = true)

/-! ## Theorems -/

theorem buildRows_getElem? {α : Type} (f : ℕ → List α) (L : ℕ)
    (hL : ∀ j, (f j).length = L) :
    ∀ fuel i k c, k < fuel → c < L →
      (buildRows f i fuel)[L * k + c]? = (f (i + k))[c]? := by
  intro fuel
  induction fuel with
  | zero => intro i k c hk _; exact absurd hk (Nat.not_lt_zero k)
  | succ fuel ih =>
    intro i k c hk hc
    cases k with
    | zero =>
      simp only [Nat.mul_zero, Nat.zero_add, buildRows, Nat.add_zero]
      rw [List.getElem?_append, if_pos (by rw [hL i]; exact hc)]
    | succ k =>
      have hidx : L * (k + 1) + c = (f i).length + (L * k + c) := by
        rw [hL i]; ring
      have harg : i + 1 + k = i + (k + 1) := by omega
      simp only [buildRows, hidx]
      rw [List.getElem?_append_right (Nat.le_add_right _ _),
        Nat.add_sub_cancel_left,
        ih (i + 1) k c (Nat.lt_of_succ_lt_succ hk) hc, harg]

/-- Upper bound for the running `foldl max`. -/
theorem foldl_max_le {b : ℚ} :
    ∀ (l : List ℚ) (a : ℚ), a ≤ b → (∀ v ∈ l, v ≤ b) → l.foldl max a ≤ b := by
  intro l
  induction l with
  | nil => intro a ha _; exact ha
  | cons v t ih =>
    intro a ha hl
    exact ih (max a v) (max_le ha (hl v (List.mem_cons_self v t)))
      (fun w hw => hl w (List.mem_cons_of_mem v hw))

/-- Every value of the encoded image tensor lies in `[0, 1]` when the
input bytes lie in `[0, 255]`. -/
theorem imageTensorData_abs_le_one (img : ℕ → ℕ) (w h : ℕ)
    (hb : ∀ j, img j ≤ 255) :
    ∀ v ∈ imageTensorData img w h, |v| ≤ 1 := by
  intro v hv
  have hform : ∃ k, v = (img k : ℚ) / 255 := by
    simp only [imageTensorData, List.mem_append, List.mem_map,
      List.mem_range] at hv
    rcases hv with (⟨a, _, ha⟩ | ⟨a, _, ha⟩) | ⟨a, _, ha⟩ <;> exact ⟨_, ha.symm⟩
  obtain ⟨k, rfl⟩ := hform
  have h0 : (0 : ℚ) ≤ (img k : ℚ) / 255 := by positivity
  have h1 : (img k : ℚ) / 255 ≤ 1 := by
    rw [div_le_one (by norm_num)]
    exact_mod_cast hb k
  rw [abs_of_nonneg h0]
  exact h1

/-- Accessing the three channel planes of the encoded tensor. -/
theorem imageTensorData_getD (img : ℕ → ℕ) (w h i : ℕ) (hi : i < w * h) :
    (imageTensorData img w h).getD i 0 = (img (4 * i) : ℚ) / 255 ∧
    (imageTensorData img w h).getD (w * h + i) 0 = (img (4 * i + 1) : ℚ) / 255 ∧
    (imageTensorData img w h).getD (2 * (w * h) + i) 0 =
      (img (4 * i + 2) : ℚ) / 255 := by
  simp only [imageTensorData, List.getD_eq_getElem?_getD]
  refine ⟨?_, ?_, ?_⟩
  · rw [List.getElem?_append_left (by simp; omega),
      List.getElem?_append_left (by simpa using hi)]
    simp [List.getElem?_map, List.getElem?_range hi]
  · rw [List.getElem?_append_left (by simp; omega),
      List.getElem?_append_right (by simp)]
    simp only [List.length_map, List.length_range, Nat.add_sub_cancel_left]
    simp [List.getElem?_map, List.getElem?_range hi]
  · rw [List.getElem?_append_right (by simp; omega)]
    simp only [List.length_append, List.length_map, List.length_range]
    have h2 : 2 * (w * h) + i - (w * h + w * h) = i := by omega
    rw [h2]
    simp [List.getElem?_map, List.getElem?_range hi]

/-- The four buffer cells of pixel `i` in the output of
`postprocessImage`. -/
theorem postprocessImage_getElem? (data : List ℚ) (w h i : ℕ)
    (hi : i < w * h) (c : ℕ) (hc : c < 4) :
    (postprocessImage data w h)[4 * i + c]? =
      (postChunk data (w * h) (decide (maxAbsSample data ≤ 2)) i)[c]? := by
  unfold postprocessImage
  have h := buildRows_getElem?
    (postChunk data (w * h) (decide (maxAbsSample data ≤ 2))) 4
    (by intro j; simp [postChunk]) (w * h) 0 i c hi hc
  simpa using h

/-- Claim C5: `postprocessImage` inspects up to the first 1000 scalar
samples of the tensor (exactly `min 1000 ⌈len/3⌉` of them) and tracks
their maximum absolute value; if that maximum is ≤ 2.0 every channel
value is multiplied by 255 before use, otherwise the values are used
unchanged; in both cases each output channel is rounded to the nearest
integer and clamped to `[0, 255]`, and the alpha cell of every output
pixel is 255. -/
theorem postprocessImage_range_autodetect (data : List ℚ) (w h i : ℕ)
    (hi : i < w * h) :
    maxAbsSample data =
      ((data.take (min 1000 ((data.length + 2) / 3))).map
        (fun v => |v|)).foldl max 0 ∧
    (postprocessImage data w h)[4 * i + 3]? = some 255 ∧
    (maxAbsSample data ≤ 2 →
      (postprocessImage data w h)[4 * i]? =
        some (clampByte (round (data.getD i 0 * 255))) ∧
      (postprocessImage data w h)[4 * i + 1]? =
        some (clampByte (round (data.getD (w * h + i) 0 * 255))) ∧
      (postprocessImage data w h)[4 * i + 2]? =
        some (clampByte (round (data.getD (2 * (w * h) + i) 0 * 255)))) ∧
    (¬ maxAbsSample data ≤ 2 →
      (postprocessImage data w h)[4 * i]? =
        some (clampByte (round (data.getD i 0))) ∧
      (postprocessImage data w h)[4 * i + 1]? =
        some (clampByte (round (data.getD (w * h + i) 0))) ∧
      (postprocessImage data w h)[4 * i + 2]? =
        some (clampByte (round (data.getD (2 * (w * h) + i) 0)))) := by
  have h0 := postprocessImage_getElem? data w h i hi 0 (by omega)
  have h1 := postprocessImage_getElem? data w h i hi 1 (by omega)
  have h2 := postprocessImage_getElem? data w h i hi 2 (by omega)
  have h3 := postprocessImage_getElem? data w h i hi 3 (by omega)
  rw [Nat.add_zero] at h0
  refine ⟨rfl, ?_, ?_, ?_⟩
  · rw [h3]; simp [postChunk]
  · intro hn
    rw [h0, h1, h2]
    simp [postChunk, hn]
  · intro hn
    rw [h0, h1, h2]
    simp [postChunk, hn]

/-- Closed-form witness for `postprocessImage_range_autodetect`. -/
theorem postprocessImage_range_autodetect_witness :
    maxAbsSample [1/2, 3] =
      (([(1 : ℚ)/2, 3].take (min 1000 (([(1 : ℚ)/2, 3].length + 2) / 3))).map
        (fun v => |v|)).foldl max 0 ∧
    (postprocessImage [1/2, 3] 1 1)[4 * 0 + 3]? = some 255 ∧
    (maxAbsSample [1/2, 3] ≤ 2 →
      (postprocessImage [1/2, 3] 1 1)[4 * 0]? =
        some (clampByte (round (([(1 : ℚ)/2, 3]).getD 0 0 * 255))) ∧
      (postprocessImage [1/2, 3] 1 1)[4 * 0 + 1]? =
        some (clampByte (round (([(1 : ℚ)/2, 3]).getD (1 * 1 + 0) 0 * 255))) ∧
      (postprocessImage [1/2, 3] 1 1)[4 * 0 + 2]? =
        some (clampByte (round (([(1 : ℚ)/2, 3]).getD (2 * (1 * 1) + 0) 0 * 255)))) ∧
    (¬ maxAbsSample [1/2, 3] ≤ 2 →
      (postprocessImage [1/2, 3] 1 1)[4 * 0]? =
        some (clampByte (round (([(1 : ℚ)/2, 3]).getD 0 0))) ∧
      (postprocessImage [1/2, 3] 1 1)[4 * 0 + 1]? =
        some (clampByte (round (([(1 : ℚ)/2, 3]).getD (1 * 1 + 0) 0))) ∧
      (postprocessImage [1/2, 3] 1 1)[4 * 0 + 2]? =
        some (clampByte (round (([(1 : ℚ)/2, 3]).getD (2 * (1 * 1) + 0) 0)))) :=
  postprocessImage_range_autodetect [1/2, 3] 1 1 0 (by decide)

/-- Claim C1: The mask produced by `preprocessImage` on a
`modelSize × modelSize` image is `1.0` exactly at the pixels `(x, y)`
with `y ≥ region.y` and `x ≥ region.x`, where `region` is the watermark
region at `(modelSize, modelSize, narrowRatio)` — the whole bottom-right
quadrant of the region's top-left corner — and `0.0` everywhere else. -/
theorem preprocess_mask_quadrant (s x y : ℕ) (hx : x < s) (hy : y < s) :
    ((preprocessMask s s)[y * s + x]? = some 1 ↔
      (calculateWatermarkRegion s s narrowRatio).y ≤ y ∧
        (calculateWatermarkRegion s s narrowRatio).x ≤ x) ∧
    (¬ ((calculateWatermarkRegion s s narrowRatio).y ≤ y ∧
        (calculateWatermarkRegion s s narrowRatio).x ≤ x) →
      (preprocessMask s s)[y * s + x]? = some 0) := by
  have hval : (preprocessMask s s)[y * s + x]? =
      some (if (calculateWatermarkRegion s s narrowRatio).y ≤ y ∧
          (calculateWatermarkRegion s s narrowRatio).x ≤ x then (1 : ℚ)
        else 0) := by
    unfold preprocessMask
    have h := buildRows_getElem?
      (fun yy => (List.range s).map
        (fun xx => if (calculateWatermarkRegion s s narrowRatio).y ≤ yy ∧
            (calculateWatermarkRegion s s narrowRatio).x ≤ xx then (1 : ℚ)
          else 0))
      s (by intro j; simp) s 0 y x hy hx
    rw [Nat.mul_comm y s]
    rw [h]
    simp [List.getElem?_map, List.getElem?_range hx]
  refine ⟨?_, ?_⟩
  · rw [hval]
    by_cases hc : (calculateWatermarkRegion s s narrowRatio).y ≤ y ∧
        (calculateWatermarkRegion s s narrowRatio).x ≤ x
    · simp [hc]
    · simp [hc]
  · intro hc
    rw [hval, if_neg hc]

/-- Closed-form witness for `preprocess_mask_quadrant`. -/
theorem preprocess_mask_quadrant_witness :
    ((preprocessMask 4 4)[2 * 4 + 3]? = some 1 ↔
      (calculateWatermarkRegion 4 4 narrowRatio).y ≤ 2 ∧
        (calculateWatermarkRegion 4 4 narrowRatio).x ≤ 3) ∧
    (¬ ((calculateWatermarkRegion 4 4 narrowRatio).y ≤ 2 ∧
        (calculateWatermarkRegion 4 4 narrowRatio).x ≤ 3) →
      (preprocessMask 4 4)[2 * 4 + 3]? = some 0) :=
  preprocess_mask_quadrant 4 3 2 (by decide) (by decide)

/-- Claim C8: Encoding a square image with `preprocessImage` and decoding a
tensor built from exactly those normalized values with `postprocessImage`
reproduces the original RGB bytes exactly (in particular within ±1), with
alpha 255. -/
theorem tensor_roundtrip (img : ℕ → ℕ) (s i : ℕ)
    (hb : ∀ j, img j ≤ 255) (hi : i < s * s) :
    (postprocessImage (imageTensorData img s s) s s)[4 * i]? =
      some (img (4 * i)) ∧
    (postprocessImage (imageTensorData img s s) s s)[4 * i + 1]? =
      some (img (4 * i + 1)) ∧
    (postprocessImage (imageTensorData img s s) s s)[4 * i + 2]? =
      some (img (4 * i + 2)) ∧
    (postprocessImage (imageTensorData img s s) s s)[4 * i + 3]? =
      some 255 := by
  have hnorm : maxAbsSample (imageTensorData img s s) ≤ 2 := by
    unfold maxAbsSample
    refine foldl_max_le _ 0 (by norm_num) ?_
    intro v hv
    simp only [List.mem_map] at hv
    obtain ⟨u, hu, rfl⟩ := hv
    have hmem : u ∈ imageTensorData img s s := List.mem_of_mem_take hu
    have := imageTensorData_abs_le_one img s s hb u hmem
    linarith
  obtain ⟨hd0, hd1, hd2⟩ := imageTensorData_getD img s s i hi
  have h0 := postprocessImage_getElem? (imageTensorData img s s) s s i hi 0
    (by omega)
  have h1 := postprocessImage_getElem? (imageTensorData img s s) s s i hi 1
    (by omega)
  have h2 := postprocessImage_getElem? (imageTensorData img s s) s s i hi 2
    (by omega)
  have h3 := postprocessImage_getElem? (imageTensorData img s s) s s i hi 3
    (by omega)
  rw [Nat.add_zero] at h0
  have ha : (postprocessImage (imageTensorData img s s) s s)[4 * i + 3]? =
      some 255 := by
    rw [h3]
    simp [postChunk]
  have hr : (postprocessImage (imageTensorData img s s) s s)[4 * i]? =
      some (clampByte (round ((imageTensorData img s s).getD i 0 * 255))) := by
    rw [h0]
    simp [postChunk, hnorm]
  have hg : (postprocessImage (imageTensorData img s s) s s)[4 * i + 1]? =
      some (clampByte (round
        ((imageTensorData img s s).getD (s * s + i) 0 * 255))) := by
    rw [h1]
    simp [postChunk, hnorm]
  have hbl : (postprocessImage (imageTensorData img s s) s s)[4 * i + 2]? =
      some (clampByte (round
        ((imageTensorData img s s).getD (2 * (s * s) + i) 0 * 255))) := by
    rw [h2]
    simp [postChunk, hnorm]
  have hbyte : ∀ j : ℕ, clampByte (round ((img j : ℚ) / 255 * 255)) = img j := by
    intro j
    have hcancel : (img j : ℚ) / 255 * 255 = (img j : ℚ) := by
      field_simp
    rw [hcancel, round_natCast]
    have := hb j
    unfold clampByte
    omega
  refine ⟨?_, ?_, ?_, ha⟩
  · rw [hr, hd0, hbyte]
  · rw [hg, hd1, hbyte]
  · rw [hbl, hd2, hbyte]

/-- Closed-form witness for `tensor_roundtrip`. -/
theorem tensor_roundtrip_witness :
    (postprocessImage (imageTensorData (fun j => j % 7) 2 2) 2 2)[4 * 1]? =
      some ((fun j => j % 7) (4 * 1)) ∧
    (postprocessImage (imageTensorData (fun j => j % 7) 2 2) 2 2)[4 * 1 + 1]? =
      some ((fun j => j % 7) (4 * 1 + 1)) ∧
    (postprocessImage (imageTensorData (fun j => j % 7) 2 2) 2 2)[4 * 1 + 2]? =
      some ((fun j => j % 7) (4 * 1 + 2)) ∧
    (postprocessImage (imageTensorData (fun j => j % 7) 2 2) 2 2)[4 * 1 + 3]? =
      some 255 :=
  tensor_roundtrip (fun j => j % 7) 2 1
    (fun j => Nat.le_of_lt_succ (Nat.lt_of_lt_of_le (Nat.mod_lt j (by omega))
      (by omega)))
    (by decide)

/-- The smoothstep weight is never negative. -/
theorem featherAlpha_of_nonpos (f d : ℝ) (hd : d ≤ 0) :
    featherAlpha f d = 1 := by
  simp [featherAlpha, hd]

theorem featherAlpha_of_ge (f d : ℝ) (hd : 0 < d) (hf : f ≤ d) :
    featherAlpha f d = 0 := by
  rw [featherAlpha, if_neg (by linarith), if_pos hf]

theorem featherAlpha_nonneg (f d : ℝ) : 0 ≤ featherAlpha f d := by
  unfold featherAlpha
  split_ifs with h1 h2
  · norm_num
  · exact le_refl 0
  · push_neg at h1 h2
    have hf : 0 < f := lt_trans h1 h2
    have ht0 : 0 < d / f := div_pos h1 hf
    have ht1 : d / f < 1 := (div_lt_one hf).mpr h2
    nlinarith [mul_nonneg (sq_nonneg (1 - d / f))
      (by linarith : (0 : ℝ) ≤ 1 + 2 * (d / f))]

/-- Claim C6: The feather blend weight used by `createFeatheredBlend`, as a
function of the distance from the core region, is exactly 1 when
`dist ≤ 0`, exactly 0 when `dist ≥ featherPixels` (for a pixel actually
away from the core, `dist > 0`), equals `1 − t²(3 − 2t)` with
`t = dist / featherPixels` strictly in between, and is monotonically
non-increasing in `dist` on `[0, ∞)`. -/
theorem featherAlpha_smoothstep (f : ℝ) :
    (∀ d : ℝ, d ≤ 0 → featherAlpha f d = 1) ∧
    (∀ d : ℝ, 0 < d → f ≤ d → featherAlpha f d = 0) ∧
    (∀ d : ℝ, 0 < d → d < f →
      featherAlpha f d = 1 - d / f * (d / f) * (3 - 2 * (d / f))) ∧
    (∀ d₁ d₂ : ℝ, 0 ≤ d₁ → d₁ ≤ d₂ →
      featherAlpha f d₂ ≤ featherAlpha f d₁) := by
  refine ⟨?_, ?_, ?_, ?_⟩
  · intro d hd; simp [featherAlpha, hd]
  · intro d hd hf
    rw [featherAlpha, if_neg (by linarith), if_pos hf]
  · intro d hd hf
    rw [featherAlpha, if_neg (by linarith), if_neg (by linarith)]
  · intro d₁ d₂ h0 h12
    by_cases ha : d₂ ≤ 0
    · have : d₁ ≤ 0 := le_trans h12 ha
      simp [featherAlpha, ha, this]
    · push_neg at ha
      by_cases hb : f ≤ d₂
      · rw [featherAlpha, if_neg (by linarith), if_pos hb]
        exact featherAlpha_nonneg f d₁
      · push_neg at hb
        have hf : 0 < f := lt_trans ha hb
        rw [featherAlpha, if_neg (by linarith), if_neg (by linarith)]
        by_cases hc : d₁ ≤ 0
        · rw [featherAlpha, if_pos hc]
          have ht0 : 0 < d₂ / f := div_pos ha hf
          have ht1 : d₂ / f < 1 := (div_lt_one hf).mpr hb
          nlinarith
        · push_neg at hc
          have hd1f : d₁ < f := lt_of_le_of_lt h12 hb
          rw [featherAlpha, if_neg (by linarith), if_neg (by linarith)]
          have ht10 : 0 < d₁ / f := div_pos hc hf
          have ht21 : d₂ / f < 1 := (div_lt_one hf).mpr hb
          have hle : d₁ / f ≤ d₂ / f := by gcongr
          nlinarith [mul_nonneg (sub_nonneg.mpr hle)
              (sub_nonneg.mpr ht21.le),
            mul_pos ht10 (lt_of_lt_of_le ht10 hle),
            sq_nonneg (d₂ / f - d₁ / f)]

/-- Closed-form witness for `featherAlpha_smoothstep`. -/
theorem featherAlpha_smoothstep_witness :
    featherAlpha 2 (-1) = 1 ∧ featherAlpha 2 3 = 0 ∧
    featherAlpha 2 1 = 1 - 1 / 2 * (1 / 2) * (3 - 2 * (1 / 2)) ∧
    featherAlpha 2 (3 / 2) ≤ featherAlpha 2 1 :=
  ⟨(featherAlpha_smoothstep 2).1 (-1) (by norm_num),
   (featherAlpha_smoothstep 2).2.1 3 (by norm_num) (by norm_num),
   (featherAlpha_smoothstep 2).2.2.1 1 (by norm_num) (by norm_num),
   (featherAlpha_smoothstep 2).2.2.2 1 (3 / 2) (by norm_num) (by norm_num)⟩

/-- The region always touches the bottom-right image corner:
`x + width = imageWidth` and `y + height = imageHeight`. -/
theorem calculateWatermarkRegion_edges (w h : ℕ) (ratio : ℚ) :
    (calculateWatermarkRegion w h ratio).x +
      (calculateWatermarkRegion w h ratio).width = w ∧
    (calculateWatermarkRegion w h ratio).y +
      (calculateWatermarkRegion w h ratio).height = h := by
  simp only [calculateWatermarkRegion]
  constructor <;> omega

/-- Blending with weight 1 returns the processed channel unchanged. -/
theorem blendChannel_one (o p : ℕ) (hp : p ≤ 255) : blendChannel o p 1 = p := by
  unfold blendChannel
  have h : (o : ℝ) * (1 - 1) + (p : ℝ) * 1 = ((p : ℕ) : ℝ) := by ring
  rw [h, round_natCast]
  unfold clampByte
  omega

/-- Blending with weight 0 returns the original channel unchanged. -/
theorem blendChannel_zero (o p : ℕ) (ho : o ≤ 255) : blendChannel o p 0 = o := by
  unfold blendChannel
  have h : (o : ℝ) * (1 - 0) + (p : ℝ) * 0 = ((o : ℕ) : ℝ) := by ring
  rw [h, round_natCast]
  unfold clampByte
  omega

/-- Component-wise equality of pixels. -/
theorem Pixel.ext_fields {p q : Pixel} (hr : p.r = q.r) (hg : p.g = q.g)
    (hb : p.b = q.b) (ha : p.a = q.a) : p = q := by
  cases p; cases q; simp_all

/-- Claim C2: `composeFinalImage` is bit-identical to the original image at
every in-bounds pixel whose (leading-edge) distance from the core
extended region exceeds `featherPixels` — in particular verbatim at every
pixel outside the feather-expanded region — and bit-identical to the
resampled processed patch at every pixel inside the core region.
Channel-range and full-opacity-alpha hypotheses restate the `ImageData`
byte invariants of the spec's data model. -/
theorem composeFinalImage_frame_effect (origW origH feather : ℕ)
    (original resampled : ℕ → ℕ → Pixel) (r : Region)
    (hr : r = calculateWatermarkRegion origW origH extendedRatio) :
    (∀ X Y, X < origW → Y < origH →
      feather ^ 2 < (r.x - X) ^ 2 + (r.y - Y) ^ 2 →
      (original X Y).r ≤ 255 → (original X Y).g ≤ 255 →
      (original X Y).b ≤ 255 → (original X Y).a = 255 →
      composeFinalImage origW origH feather original resampled X Y =
        original X Y) ∧
    (∀ X Y, r.x ≤ X → r.y ≤ Y → X < origW → Y < origH →
      (resampled (X - (r.x - feather)) (Y - (r.y - feather))).r ≤ 255 →
      (resampled (X - (r.x - feather)) (Y - (r.y - feather))).g ≤ 255 →
      (resampled (X - (r.x - feather)) (Y - (r.y - feather))).b ≤ 255 →
      (resampled (X - (r.x - feather)) (Y - (r.y - feather))).a = 255 →
      composeFinalImage origW origH feather original resampled X Y =
        resampled (X - (r.x - feather)) (Y - (r.y - feather))) ∧
    (∀ X Y, X < r.x - feather ∨ Y < r.y - feather →
      composeFinalImage origW origH feather original resampled X Y =
        original X Y) := by
  subst hr
  set r := calculateWatermarkRegion origW origH extendedRatio with hrdef
  obtain ⟨hxe, hye⟩ := calculateWatermarkRegion_edges origW origH extendedRatio
  rw [← hrdef] at hxe hye
  refine ⟨?_, ?_, ?_⟩
  · -- distance beyond the feather: original pixel, whether inside or
    -- outside the expanded region
    intro X Y hXw hYh hdist hor hog hob hoa
    simp only [composeFinalImage, ← hrdef]
    by_cases hin : r.x - feather ≤ X ∧
        X < r.x - feather +
          min (origW - (r.x - feather)) (r.width + feather) ∧
        r.y - feather ≤ Y ∧
        Y < r.y - feather +
          min (origH - (r.y - feather)) (r.height + feather)
    · rw [if_pos hin]
      obtain ⟨hex, -, hey, -⟩ := hin
      have hdx : r.x - (r.x - feather) - (X - (r.x - feather)) = r.x - X := by
        omega
      have hdy : r.y - (r.y - feather) - (Y - (r.y - feather)) = r.y - Y := by
        omega
      have hS : distSqFromCore (r.x - (r.x - feather)) (r.y - (r.y - feather))
          (X - (r.x - feather)) (Y - (r.y - feather)) =
          (r.x - X) ^ 2 + (r.y - Y) ^ 2 := by
        unfold distSqFromCore
        rw [hdx, hdy]
      have hSpos : 0 < (r.x - X) ^ 2 + (r.y - Y) ^ 2 :=
        Nat.lt_of_le_of_lt (Nat.zero_le _) hdist
      have halpha : featherAlpha (feather : ℝ)
          (distFromCore (r.x - (r.x - feather)) (r.y - (r.y - feather))
            (X - (r.x - feather)) (Y - (r.y - feather))) = 0 := by
        apply featherAlpha_of_ge
        · unfold distFromCore
          rw [Real.sqrt_pos, hS]
          exact_mod_cast hSpos
        · unfold distFromCore
          rw [hS]
          refine le_of_lt ((Real.lt_sqrt (by positivity)).mpr ?_)
          exact_mod_cast hdist
      have hXX : r.x - feather + (X - (r.x - feather)) = X := by omega
      have hYY : r.y - feather + (Y - (r.y - feather)) = Y := by omega
      simp only [createFeatheredBlend, halpha, hXX, hYY]
      refine Pixel.ext_fields ?_ ?_ ?_ ?_
      · simpa using blendChannel_zero _ _ hor
      · simpa using blendChannel_zero _ _ hog
      · simpa using blendChannel_zero _ _ hob
      · simpa using hoa.symm
    · rw [if_neg hin]
  · -- inside the core region: the resampled processed patch, verbatim
    intro X Y hX hY hXw hYh hpr hpg hpb hpa
    simp only [composeFinalImage, ← hrdef]
    have hin : r.x - feather ≤ X ∧
        X < r.x - feather +
          min (origW - (r.x - feather)) (r.width + feather) ∧
        r.y - feather ≤ Y ∧
        Y < r.y - feather +
          min (origH - (r.y - feather)) (r.height + feather) := by
      omega
    rw [if_pos hin]
    have hdx : r.x - (r.x - feather) - (X - (r.x - feather)) = 0 := by omega
    have hdy : r.y - (r.y - feather) - (Y - (r.y - feather)) = 0 := by omega
    have hS : distSqFromCore (r.x - (r.x - feather)) (r.y - (r.y - feather))
        (X - (r.x - feather)) (Y - (r.y - feather)) = 0 := by
      unfold distSqFromCore
      rw [hdx, hdy]
      norm_num
    have halpha : featherAlpha (feather : ℝ)
        (distFromCore (r.x - (r.x - feather)) (r.y - (r.y - feather))
          (X - (r.x - feather)) (Y - (r.y - feather))) = 1 := by
      apply featherAlpha_of_nonpos
      unfold distFromCore
      rw [hS]
      simp
    simp only [createFeatheredBlend, halpha]
    refine Pixel.ext_fields ?_ ?_ ?_ ?_
    · simpa using blendChannel_one _ _ hpr
    · simpa using blendChannel_one _ _ hpg
    · simpa using blendChannel_one _ _ hpb
    · simpa using hpa.symm
  · -- outside the feather-expanded region: verbatim copy
    intro X Y hout
    simp only [composeFinalImage, ← hrdef]
    rw [if_neg (by omega)]

/-- The extended region of a 100×100 image. -/
theorem calcRegion100 :
    calculateWatermarkRegion 100 100 extendedRatio = ⟨84, 84, 16, 16⟩ := by
  norm_num [calculateWatermarkRegion, extendedRatio, round_eq]
  decide

/-- Closed-form witness for `composeFinalImage_frame_effect`
(`calculateWatermarkRegion 100 100 extendedRatio = ⟨84, 84, 16, 16⟩`,
expanded by a feather of 10 to origin `(74, 74)`). -/
theorem composeFinalImage_frame_effect_witness :
    composeFinalImage 100 100 10 (fun _ _ => ⟨1, 2, 3, 255⟩)
      (fun _ _ => ⟨4, 5, 6, 255⟩) 0 0 = ⟨1, 2, 3, 255⟩ ∧
    composeFinalImage 100 100 10 (fun _ _ => ⟨1, 2, 3, 255⟩)
      (fun _ _ => ⟨4, 5, 6, 255⟩) 90 90 = ⟨4, 5, 6, 255⟩ :=
  ⟨(composeFinalImage_frame_effect 100 100 10 (fun _ _ => ⟨1, 2, 3, 255⟩)
      (fun _ _ => ⟨4, 5, 6, 255⟩) ⟨84, 84, 16, 16⟩
      calcRegion100.symm).1 0 0 (by decide) (by decide) (by decide) (by decide)
      (by decide) (by decide) (by decide),
   (composeFinalImage_frame_effect 100 100 10 (fun _ _ => ⟨1, 2, 3, 255⟩)
      (fun _ _ => ⟨4, 5, 6, 255⟩) ⟨84, 84, 16, 16⟩
      calcRegion100.symm).2.1 90 90 (by decide) (by decide) (by decide)
      (by decide) (by decide) (by decide) (by decide) (by decide)⟩

/-- Marking preserves non-queued items and admissible edges. -/
theorem allowedEdge_cancelMark (it : BatchItem) :
    allowedEdge it.status (cancelMark it).status := by
  unfold cancelMark allowedEdge
  by_cases h : it.status = .queued
  · rw [if_pos h]
    right; right; right
    exact ⟨h, rfl⟩
  · rw [if_neg h]
    left; rfl

/-- The cancellation sweep is an admissible snapshot step. -/
theorem stepOK_cancelFrom : ∀ (q : List BatchItem) (i : ℕ),
    stepOK q (cancelFrom q i) := by
  intro q
  induction q with
  | nil =>
    intro i
    refine ⟨rfl, fun j => ?_⟩
    cases i <;> exact Or.inl rfl
  | cons it rest ih =>
    intro i
    cases i with
    | zero =>
      obtain ⟨hlen, hpt⟩ := ih 0
      refine ⟨by simpa [cancelFrom] using hlen, fun j => ?_⟩
      cases j with
      | zero => simpa [cancelFrom] using allowedEdge_cancelMark it
      | succ j => simpa [cancelFrom] using hpt j
    | succ n =>
      obtain ⟨hlen, hpt⟩ := ih n
      refine ⟨by simpa [cancelFrom] using hlen, fun j => ?_⟩
      cases j with
      | zero => exact Or.inl rfl
      | succ j => simpa [cancelFrom] using hpt j

/-- Overwriting one in-range item by an admissible edge is an admissible
snapshot step. -/
theorem stepOK_set (q : List BatchItem) (i : ℕ) (it2 : BatchItem)
    (hi : i < q.length)
    (hedge : allowedEdge (q.getD i default).status it2.status) :
    stepOK q (q.set i it2) := by
  refine ⟨List.length_set q i it2, fun j => ?_⟩
  by_cases hj : j = i
  · subst hj
    rw [List.getD_eq_getElem?_getD (q.set j it2), List.getElem?_set_self hi]
    exact hedge
  · rw [List.getD_eq_getElem?_getD (q.set i it2),
      List.getElem?_set_ne (fun h => hj h.symm),
      ← List.getD_eq_getElem?_getD]
    exact Or.inl rfl

/-- Every snapshot trace of the processing loop moves along admissible
per-item transitions. -/
theorem chain_runTraceAux (outcomes : ℕ → Except String String)
    (cancelAt : ℕ → Bool) :
    ∀ (fuel i : ℕ) (cancelled : Bool) (q : List BatchItem),
      List.Chain stepOK q (runTraceAux outcomes cancelAt fuel i cancelled q) := by
  intro fuel
  induction fuel with
  | zero => intro i cancelled q; exact List.Chain.nil
  | succ fuel ih =>
    intro i cancelled q
    rw [runTraceAux]
    by_cases hc : (cancelled || cancelAt i) = true
    · rw [if_pos hc]
      exact List.Chain.cons (stepOK_cancelFrom q i) List.Chain.nil
    · rw [if_neg hc]
      cases hqi : q[i]? with
      | none => exact List.Chain.nil
      | some it =>
        dsimp only
        obtain ⟨hi, hget⟩ := List.getElem?_eq_some.mp hqi
        have hgd : q.getD i default = it := by
          rw [List.getD_eq_getElem q default hi, hget]
        by_cases hst : it.status = .queued
        · rw [if_pos hst]
          refine List.Chain.cons ?_ (List.Chain.cons ?_ (ih (i + 1) _ _))
          · refine stepOK_set q i _ hi ?_
            rw [hgd, hst]
            right; left
            exact ⟨rfl, rfl⟩
          · rw [← List.set_set { it with status := .processing }
              (finishItem (outcomes i) it) q i]
            refine stepOK_set _ i _ (by rw [List.length_set]; exact hi) ?_
            rw [List.getD_eq_getElem?_getD, List.getElem?_set_self hi]
            simp only [Option.getD_some]
            cases houtcome : outcomes i with
            | ok res =>
              right; right; left
              exact ⟨rfl, Or.inl (by simp [finishItem])⟩
            | error e =>
              right; right; left
              exact ⟨rfl, Or.inr (by simp [finishItem])⟩
        · rw [if_neg hst]
          exact ih (i + 1) _ _

/-- Operation `addFiles` only appends: existing entries are untouched. -/
theorem addFiles_preserves_getD (validate : BatchFile → Validation) :
    ∀ (files : List BatchFile) (s : BatchState) (j : ℕ),
      j < s.queue.length →
      (addFiles validate s files).2.queue.getD j default =
        s.queue.getD j default := by
  intro files
  induction files with
  | nil => intro s j _; rfl
  | cons f fs ih =>
    intro s j hj
    simp only [addFiles]
    have hstep := ih
      { s with
        queue := s.queue ++ [admittedItem validate s.nextId f],
        nextId := s.nextId + 1 } j (by simp; omega)
    rw [hstep]
    simp only
    rw [List.getD_eq_getElem?_getD, List.getElem?_append_left hj,
      ← List.getD_eq_getElem?_getD]

/-- Claim C3: Along any run of the `BatchProcessor`, an item's status only
moves along `QUEUED → PROCESSING → {COMPLETE, ERROR}` or
`QUEUED → CANCELLED`; the terminal statuses admit no outgoing edge;
`addFiles` never touches an existing item and `cancel` never touches the
queue at all. -/
theorem batch_status_transitions :
    (∀ (s : BatchState) (outcomes : ℕ → Except String String)
        (cancelAt : ℕ → Bool),
      List.Chain stepOK s.queue (startTrace s outcomes cancelAt)) ∧
    (∀ st st2, allowedEdge st st2 → isTerminal st = true → st2 = st) ∧
    (∀ (validate : BatchFile → Validation) (s : BatchState)
        (files : List BatchFile) (j : ℕ), j < s.queue.length →
      (addFiles validate s files).2.queue.getD j default =
        s.queue.getD j default) ∧
    (∀ s : BatchState, (cancel s).queue = s.queue) := by
  have haddFiles := addFiles_preserves_getD
  refine ⟨?_, ?_, ?_, ?_⟩
  · intro s outcomes cancelAt
    unfold startTrace
    by_cases hp : s.isProcessing = true
    · rw [if_pos hp]; exact List.Chain.nil
    · rw [if_neg hp]; exact chain_runTraceAux outcomes cancelAt _ 0 false s.queue
  · intro st st2 hedge hterm
    cases st <;> cases st2 <;> simp_all [allowedEdge, isTerminal]
  · intro validate s files j hj
    exact haddFiles validate files s j hj
  · intro s; rfl

/-- Closed-form witness for `batch_status_transitions`. -/
theorem batch_status_transitions_witness :
    BatchItemStatus.complete = BatchItemStatus.complete ∧
    (addFiles (fun _ => ⟨true, none⟩)
        { queue := [default], isProcessing := false, isCancelled := false,
          nextId := 5 } [⟨"b", 3⟩]).2.queue.getD 0 default =
      ({ queue := [default], isProcessing := false, isCancelled := false,
          nextId := 5 } : BatchState).queue.getD 0 default :=
  ⟨batch_status_transitions.2.1 .complete .complete (Or.inl rfl) rfl,
   batch_status_transitions.2.2.1 (fun _ => ⟨true, none⟩)
     { queue := [default], isProcessing := false, isCancelled := false,
       nextId := 5 } [⟨"b", 3⟩] 0 (by decide)⟩

/-- Pointwise description of a cancellation-free run: every still-`QUEUED`
item in the loop's range is finished according to its outcome, everything
else is untouched. -/
theorem runAux_false_getD (outcomes : ℕ → Except String String) :
    ∀ (fuel i : ℕ) (q : List BatchItem) (j : ℕ),
      (runAux outcomes (fun _ => false) fuel i false q).getD j default =
        if i ≤ j ∧ j < i + fuel ∧ j < q.length ∧
            (q.getD j default).status = .queued
        then finishItem (outcomes j) (q.getD j default)
        else q.getD j default := by
  intro fuel
  induction fuel with
  | zero =>
    intro i q j
    rw [runAux, if_neg (by omega)]
  | succ fuel ih =>
    intro i q j
    rw [runAux]
    rw [if_neg (by simp)]
    cases hqi : q[i]? with
    | none =>
      have hlen : q.length ≤ i := List.getElem?_eq_none_iff.mp hqi
      dsimp only
      rw [if_neg (by omega)]
    | some it =>
      dsimp only
      obtain ⟨hi, hget⟩ := List.getElem?_eq_some.mp hqi
      have hgd : q.getD i default = it := by
        rw [List.getD_eq_getElem q default hi, hget]
      by_cases hst : it.status = .queued
      · rw [if_pos hst]
        simp only [Bool.or_false]
        rw [ih (i + 1) (q.set i (finishItem (outcomes i) it)) j]
        by_cases hj : j = i
        · subst hj
          have hset : (q.set j (finishItem (outcomes j) it)).getD j default =
              finishItem (outcomes j) (q.getD j default) := by
            rw [List.getD_eq_getElem?_getD, List.getElem?_set_self hi,
              Option.getD_some, hgd]
          rw [if_neg (by omega), hset,
            if_pos ⟨le_refl j, by omega, hi, by rw [hgd]; exact hst⟩]
        · have hset : (q.set i (finishItem (outcomes i) it)).getD j default =
              q.getD j default := by
            rw [List.getD_eq_getElem?_getD,
              List.getElem?_set_ne (fun h => hj h.symm),
              ← List.getD_eq_getElem?_getD]
          rw [hset, List.length_set]
          by_cases hcond : i ≤ j ∧ j < i + (fuel + 1) ∧ j < q.length ∧
              (q.getD j default).status = .queued
          · rw [if_pos ⟨by omega, by omega, hcond.2.2.1, hcond.2.2.2⟩,
              if_pos hcond]
          · rw [if_neg (fun hcc =>
                hcond ⟨by omega, by omega, hcc.2.2.1, hcc.2.2.2⟩),
              if_neg hcond]
      · rw [if_neg hst]
        simp only [Bool.or_false]
        rw [ih (i + 1) q j]
        by_cases hj : j = i
        · subst hj
          rw [if_neg (by omega), if_neg (fun hcc => hst (hgd ▸ hcc.2.2.2))]
        · by_cases hcond : i ≤ j ∧ j < i + (fuel + 1) ∧ j < q.length ∧
              (q.getD j default).status = .queued
          · rw [if_pos ⟨by omega, by omega, hcond.2.2.1, hcond.2.2.2⟩,
              if_pos hcond]
          · rw [if_neg (fun hcc =>
                hcond ⟨by omega, by omega, hcc.2.2.1, hcc.2.2.2⟩),
              if_neg hcond]

/-- The loop never changes the queue's length. -/
theorem cancelFrom_length : ∀ (q : List BatchItem) (i : ℕ),
    (cancelFrom q i).length = q.length := by
  intro q
  induction q with
  | nil => intro i; cases i <;> rfl
  | cons it rest ih =>
    intro i
    cases i with
    | zero => simpa [cancelFrom] using ih 0
    | succ n => simpa [cancelFrom] using ih n

/-- Function `runAux` never changes the queue's length. -/
theorem runAux_length (outcomes : ℕ → Except String String)
    (cancelAt : ℕ → Bool) :
    ∀ (fuel i : ℕ) (c : Bool) (q : List BatchItem),
      (runAux outcomes cancelAt fuel i c q).length = q.length := by
  intro fuel
  induction fuel with
  | zero => intro i c q; rfl
  | succ fuel ih =>
    intro i c q
    rw [runAux]
    by_cases hc : (c || cancelAt i) = true
    · rw [if_pos hc]
      exact cancelFrom_length q i
    · rw [if_neg hc]
      cases hqi : q[i]? with
      | none => rfl
      | some it =>
        dsimp only
        by_cases hst : it.status = .queued
        · rw [if_pos hst, ih]
          exact List.length_set q i _
        · rw [if_neg hst, ih]

/-- The queue `start` runs on, when the re-entrancy guard lets it run. -/
theorem start_queue_eq (s : BatchState) (outcomes : ℕ → Except String String)
    (cancelAt : ℕ → Bool) (hp : s.isProcessing = false) :
    (start s outcomes cancelAt).queue =
      runAux outcomes cancelAt s.queue.length 0 false s.queue := by
  unfold start
  rw [if_neg (by rw [hp]; simp)]

/-- In a cancellation-free run over an all-`QUEUED` queue, each item's
final state is its outcome applied to its original state. -/
theorem start_noCancel_getD (s : BatchState)
    (outcomes : ℕ → Except String String)
    (hp : s.isProcessing = false)
    (hq : ∀ it ∈ s.queue, it.status = .queued) :
    ∀ i, i < s.queue.length →
      (start s outcomes (fun _ => false)).queue.getD i default =
        finishItem (outcomes i) (s.queue.getD i default) := by
  intro i hi
  have hmem : s.queue.getD i default ∈ s.queue := by
    rw [List.getD_eq_getElem s.queue default hi]
    exact List.getElem_mem hi
  rw [start_queue_eq s outcomes _ hp,
    runAux_false_getD outcomes s.queue.length 0 s.queue i,
    if_pos ⟨Nat.zero_le i, by omega, hi, hq _ hmem⟩]

/-- Claim C4: In a cancellation-free run over an all-`QUEUED` queue, every
item is settled by exactly one application of its own outcome: a thrown
failure marks that item `ERROR` with the message preserved verbatim, a
success marks it `COMPLETE`, and both happen for every item — one item's
failure never prevents the others from being processed. -/
theorem batch_error_isolation (s : BatchState)
    (outcomes : ℕ → Except String String)
    (hp : s.isProcessing = false)
    (hq : ∀ it ∈ s.queue, it.status = .queued) :
    ((start s outcomes (fun _ => false)).queue.length = s.queue.length) ∧
    (∀ i, i < s.queue.length →
      (start s outcomes (fun _ => false)).queue.getD i default =
        finishItem (outcomes i) (s.queue.getD i default)) ∧
    (∀ i msg, i < s.queue.length → outcomes i = .error msg →
      ((start s outcomes (fun _ => false)).queue.getD i default).status =
        .error ∧
      ((start s outcomes (fun _ => false)).queue.getD i default).error =
        some msg) ∧
    (∀ i res, i < s.queue.length → outcomes i = .ok res →
      ((start s outcomes (fun _ => false)).queue.getD i default).status =
        .complete) := by
  have hstart := start_queue_eq s outcomes (fun _ => false) hp
  have hpt := start_noCancel_getD s outcomes hp hq
  refine ⟨by rw [hstart]; exact runAux_length _ _ _ _ _ _, hpt, ?_, ?_⟩
  · intro i msg hi hout
    rw [hpt i hi, hout]
    simp [finishItem]
  · intro i res hi hout
    rw [hpt i hi, hout]
    simp [finishItem]

/-- Closed-form witness for `batch_error_isolation`: a two-item batch
whose first item fails. -/
theorem batch_error_isolation_witness :
    ((start
        { queue := [default, default], isProcessing := false,
          isCancelled := false, nextId := 0 }
        (fun i => if i = 0 then Except.error "boom" else Except.ok "fine")
        (fun _ => false)).queue.getD 0 default).status =
      BatchItemStatus.error ∧
    ((start
        { queue := [default, default], isProcessing := false,
          isCancelled := false, nextId := 0 }
        (fun i => if i = 0 then Except.error "boom" else Except.ok "fine")
        (fun _ => false)).queue.getD 0 default).error = some "boom" ∧
    ((start
        { queue := [default, default], isProcessing := false,
          isCancelled := false, nextId := 0 }
        (fun i => if i = 0 then Except.error "boom" else Except.ok "fine")
        (fun _ => false)).queue.getD 1 default).status =
      BatchItemStatus.complete := by
  have h := batch_error_isolation
    { queue := [default, default], isProcessing := false,
      isCancelled := false, nextId := 0 }
    (fun i => if i = 0 then Except.error "boom" else Except.ok "fine")
    rfl (by decide)
  exact ⟨(h.2.2.1 0 "boom" (by decide) rfl).1,
    (h.2.2.1 0 "boom" (by decide) rfl).2,
    h.2.2.2 1 "fine" (by decide) rfl⟩

/-- Claim C10: A `cancel()` issued before `start()` has no effect: `start`
resets the cancellation flag on entry, so starting from the
cancelled-but-idle state yields exactly the same state as starting from
the pristine one, every initially `QUEUED` item still reaches `COMPLETE`
or `ERROR` (absent in-run cancellation), and none is marked
`CANCELLED`. -/
theorem cancel_before_start_noop (s : BatchState)
    (outcomes : ℕ → Except String String)
    (hp : s.isProcessing = false)
    (hq : ∀ it ∈ s.queue, it.status = .queued) :
    (∀ cancelAt : ℕ → Bool,
      start (cancel s) outcomes cancelAt = start s outcomes cancelAt) ∧
    (∀ i, i < s.queue.length →
      (((start (cancel s) outcomes (fun _ => false)).queue.getD i
          default).status = .complete ∨
        ((start (cancel s) outcomes (fun _ => false)).queue.getD i
          default).status = .error) ∧
      ((start (cancel s) outcomes (fun _ => false)).queue.getD i
          default).status ≠ .cancelled) := by
  have heq : ∀ cancelAt : ℕ → Bool,
      start (cancel s) outcomes cancelAt = start s outcomes cancelAt := by
    intro cancelAt
    simp [start, cancel, hp]
  refine ⟨heq, ?_⟩
  intro i hi
  rw [heq, start_noCancel_getD s outcomes hp hq i hi]
  cases houtcome : outcomes i with
  | ok res =>
    exact ⟨Or.inl (by simp [finishItem]), by simp [finishItem]⟩
  | error e =>
    exact ⟨Or.inr (by simp [finishItem]), by simp [finishItem]⟩

/-- Closed-form witness for `cancel_before_start_noop`. -/
theorem cancel_before_start_noop_witness :
    start (cancel
        { queue := [default], isProcessing := false, isCancelled := false,
          nextId := 0 }) (fun _ => Except.ok "r") (fun _ => true) =
      start
        { queue := [default], isProcessing := false, isCancelled := false,
          nextId := 0 } (fun _ => Except.ok "r") (fun _ => true) ∧
    ((start (cancel
        { queue := [default], isProcessing := false, isCancelled := false,
          nextId := 0 }) (fun _ => Except.ok "r")
        (fun _ => false)).queue.getD 0 default).status ≠
      BatchItemStatus.cancelled :=
  ⟨(cancel_before_start_noop
      { queue := [default], isProcessing := false, isCancelled := false,
        nextId := 0 } (fun _ => Except.ok "r") rfl (by decide)).1
      (fun _ => true),
   ((cancel_before_start_noop
      { queue := [default], isProcessing := false, isCancelled := false,
        nextId := 0 } (fun _ => Except.ok "r") rfl (by decide)).2 0
      (by decide)).2⟩

/-- Pointwise description of the cancellation sweep. -/
theorem cancelFrom_getD : ∀ (q : List BatchItem) (i j : ℕ),
    (cancelFrom q i).getD j default =
      if i ≤ j ∧ j < q.length then cancelMark (q.getD j default)
      else q.getD j default := by
  intro q
  induction q with
  | nil =>
    intro i j
    cases i <;> simp [cancelFrom]
  | cons it rest ih =>
    intro i j
    cases i with
    | zero =>
      cases j with
      | zero => simp [cancelFrom]
      | succ j =>
        simp only [cancelFrom, List.getD_cons_succ, ih 0 j,
          List.length_cons]
        by_cases hc : j < rest.length
        · rw [if_pos ⟨Nat.zero_le _, hc⟩, if_pos ⟨Nat.zero_le _, by omega⟩]
        · rw [if_neg (by omega), if_neg (by omega)]
    | succ n =>
      cases j with
      | zero => simp [cancelFrom]
      | succ j =>
        simp only [cancelFrom, List.getD_cons_succ, ih n j,
          List.length_cons]
        by_cases hc : n ≤ j ∧ j < rest.length
        · rw [if_pos hc, if_pos (by omega)]
        · rw [if_neg hc, if_neg (by omega)]

/-- Every run from a queue of only `QUEUED`-or-settled items, whose
already-passed prefix holds no `QUEUED` item, ends with every item
settled (terminal; results present on `COMPLETE` items) — whatever the
cancellation schedule. -/
theorem runAux_settles (outcomes : ℕ → Except String String)
    (cancelAt : ℕ → Bool) :
    ∀ (fuel i : ℕ) (c : Bool) (q : List BatchItem),
      (∀ j, j < i → (q.getD j default).status ≠ .queued) →
      (∀ j, j < q.length →
        (q.getD j default).status = .queued ∨ settledItem (q.getD j default)) →
      q.length ≤ i + fuel →
      ∀ j, j < q.length →
        settledItem ((runAux outcomes cancelAt fuel i c q).getD j default) := by
  intro fuel
  induction fuel with
  | zero =>
    intro i c q hpref hgood hlen j hj
    rw [runAux]
    rcases hgood j hj with h1 | h2
    · exact absurd h1 (hpref j (by omega))
    · exact h2
  | succ fuel ih =>
    intro i c q hpref hgood hlen j hj
    rw [runAux]
    by_cases hc : (c || cancelAt i) = true
    · rw [if_pos hc, cancelFrom_getD q i j]
      by_cases hij : i ≤ j ∧ j < q.length
      · rw [if_pos hij]
        unfold cancelMark
        by_cases hqd : (q.getD j default).status = .queued
        · rw [if_pos hqd]
          exact ⟨rfl, by simp⟩
        · rw [if_neg hqd]
          rcases hgood j hj with h1 | h2
          · exact absurd h1 hqd
          · exact h2
      · rw [if_neg hij]
        rcases hgood j hj with h1 | h2
        · exact absurd h1 (hpref j (by omega))
        · exact h2
    · rw [if_neg hc]
      cases hqi : q[i]? with
      | none =>
        dsimp only
        have hlen2 : q.length ≤ i := List.getElem?_eq_none_iff.mp hqi
        rcases hgood j hj with h1 | h2
        · exact absurd h1 (hpref j (by omega))
        · exact h2
      | some it =>
        dsimp only
        obtain ⟨hi, hget⟩ := List.getElem?_eq_some.mp hqi
        have hgd : q.getD i default = it := by
          rw [List.getD_eq_getElem q default hi, hget]
        by_cases hst : it.status = .queued
        · rw [if_pos hst]
          refine ih (i + 1) _ (q.set i (finishItem (outcomes i) it)) ?_ ?_ ?_
            j (by rw [List.length_set]; exact hj)
          · intro j2 hj2
            by_cases hj2i : j2 = i
            · subst hj2i
              rw [List.getD_eq_getElem?_getD, List.getElem?_set_self hi,
                Option.getD_some]
              cases outcomes j2 <;> simp [finishItem]
            · rw [List.getD_eq_getElem?_getD,
                List.getElem?_set_ne (fun hh => hj2i hh.symm),
                ← List.getD_eq_getElem?_getD]
              exact hpref j2 (by omega)
          · intro j2 hj2
            rw [List.length_set] at hj2
            by_cases hj2i : j2 = i
            · subst hj2i
              right
              rw [List.getD_eq_getElem?_getD, List.getElem?_set_self hi,
                Option.getD_some]
              unfold settledItem
              cases outcomes j2 <;> simp [finishItem, isTerminal]
            · rw [List.getD_eq_getElem?_getD,
                List.getElem?_set_ne (fun hh => hj2i hh.symm),
                ← List.getD_eq_getElem?_getD]
              exact hgood j2 hj2
          · rw [List.length_set]
            omega
        · rw [if_neg hst]
          refine ih (i + 1) _ q ?_ hgood (by omega) j hj
          intro j2 hj2
          by_cases hj2i : j2 = i
          · subst hj2i
            rw [hgd]
            exact hst
          · exact hpref j2 (by omega)

/-- Claim C7: After a run over `N` enqueued items, every item is terminal,
and `getResults` returns exactly the payload entries of the `COMPLETE`
items, in original submission order (it is the order-preserving filter of
the queue), with length `N − k` where `k` counts the items in a
non-`COMPLETE` terminal state; `ERROR`/`CANCELLED` items are omitted but
remain in the queue with their status. -/
theorem getResults_complete_only (s : BatchState)
    (outcomes : ℕ → Except String String) (cancelAt : ℕ → Bool)
    (hp : s.isProcessing = false)
    (hq : ∀ it ∈ s.queue, it.status = .queued) :
    (∀ it ∈ (start s outcomes cancelAt).queue, isTerminal it.status = true) ∧
    getResults (start s outcomes cancelAt).queue =
      ((start s outcomes cancelAt).queue.filter
        (fun it => decide (it.status = .complete))).map
        (fun it => { id := it.id, fileName := it.fileName,
                     payload := it.result.getD "" }) ∧
    (start s outcomes cancelAt).queue.length = s.queue.length ∧
    (getResults (start s outcomes cancelAt).queue).length =
      (start s outcomes cancelAt).queue.length -
        ((start s outcomes cancelAt).queue.filter
          (fun it => isTerminal it.status &&
            !(decide (it.status = .complete)))).length := by
  have hqueue := start_queue_eq s outcomes cancelAt hp
  have hlen : (start s outcomes cancelAt).queue.length = s.queue.length := by
    rw [hqueue]
    exact runAux_length _ _ _ _ _ _
  have hsettled : ∀ it ∈ (start s outcomes cancelAt).queue, settledItem it := by
    intro it hmem
    obtain ⟨n, hn, heq⟩ := List.mem_iff_getElem.mp hmem
    have hs := runAux_settles outcomes cancelAt s.queue.length 0 false s.queue
      (fun j hj => absurd hj (Nat.not_lt_zero j))
      (fun j hj => Or.inl (hq _
        (by rw [List.getD_eq_getElem s.queue default hj]
            exact List.getElem_mem hj)))
      (by omega) n (by omega)
    rw [← hqueue,
      List.getD_eq_getElem (start s outcomes cancelAt).queue default hn,
      heq] at hs
    exact hs
  have hfilter : (start s outcomes cancelAt).queue.filter
      (fun it => decide (it.status = .complete) && it.result.isSome) =
      (start s outcomes cancelAt).queue.filter
        (fun it => decide (it.status = .complete)) := by
    apply List.filter_congr
    intro x hx
    by_cases hcx : x.status = .complete
    · simp [hcx, (hsettled x hx).2 hcx]
    · simp [hcx]
  refine ⟨fun it hmem => (hsettled it hmem).1, ?_, hlen, ?_⟩
  · unfold getResults
    rw [hfilter]
  · have hfilter2 : (start s outcomes cancelAt).queue.filter
        (fun it => isTerminal it.status &&
          !(decide (it.status = .complete))) =
        (start s outcomes cancelAt).queue.filter
          (fun it => !(decide (it.status = .complete))) := by
      apply List.filter_congr
      intro x hx
      rw [(hsettled x hx).1]
      simp
    have hsplit : ((start s outcomes cancelAt).queue.filter
        (fun it => decide (it.status = .complete))).length +
        ((start s outcomes cancelAt).queue.filter
          (fun it => !(decide (it.status = .complete)))).length =
        (start s outcomes cancelAt).queue.length :=
      (List.length_eq_length_filter_add _).symm
    unfold getResults
    rw [hfilter, hfilter2, List.length_map]
    omega

/-- Closed-form witness for `getResults_complete_only`. -/
theorem getResults_complete_only_witness :
    (start
      { queue := [default, default], isProcessing := false,
        isCancelled := false, nextId := 0 }
      (fun i => if i = 0 then Except.error "x" else Except.ok "y")
      (fun _ => false)).queue.length =
    ({ queue := [default, default], isProcessing := false,
        isCancelled := false, nextId := 0 } : BatchState).queue.length :=
  (getResults_complete_only
    { queue := [default, default], isProcessing := false,
      isCancelled := false, nextId := 0 }
    (fun i => if i = 0 then Except.error "x" else Except.ok "y")
    (fun _ => false) rfl (by decide)).2.2.1

/-- Induction core for `addFiles`: lengths, assigned ids, and the
appended entries. -/
theorem addFiles_spec_aux (validate : BatchFile → Validation) :
    ∀ (files : List BatchFile) (s : BatchState),
      (addFiles validate s files).1.length = files.length ∧
      (addFiles validate s files).2.queue.length =
        s.queue.length + files.length ∧
      (∀ j, j < files.length →
        (addFiles validate s files).1.getD j 0 = s.nextId + j) ∧
      (∀ j, j < files.length →
        (addFiles validate s files).2.queue.getD (s.queue.length + j)
          default =
          admittedItem validate (s.nextId + j) (files.getD j ⟨"", 0⟩)) := by
  intro files
  induction files with
  | nil =>
    intro s
    exact ⟨rfl, by simp [addFiles], fun j hj => absurd hj (by simp),
      fun j hj => absurd hj (by simp)⟩
  | cons f fs ih =>
    intro s
    simp only [addFiles]
    obtain ⟨ih1, ih2, ih3, ih4⟩ := ih
      { s with
        queue := s.queue ++ [admittedItem validate s.nextId f],
        nextId := s.nextId + 1 }
    refine ⟨?_, ?_, ?_, ?_⟩
    · simp only [List.length_cons, ih1]
    · rw [ih2]
      simp only [List.length_append, List.length_cons, List.length_nil,
        List.length_cons]
      omega
    · intro j hj
      cases j with
      | zero => simp [admittedItem]
      | succ j =>
        rw [List.getD_cons_succ, ih3 j (by simpa using hj)]
        simp only
        omega
    · intro j hj
      cases j with
      | zero =>
        simp only [Nat.add_zero]
        have hpres := addFiles_preserves_getD validate fs
          { s with
            queue := s.queue ++ [admittedItem validate s.nextId f],
            nextId := s.nextId + 1 } s.queue.length (by simp)
        rw [hpres]
        simp only
        rw [List.getD_eq_getElem?_getD,
          List.getElem?_append_right (le_refl s.queue.length),
          Nat.sub_self]
        simp
      | succ j =>
        have hidx : s.queue.length + (j + 1) =
            (s.queue ++ [admittedItem validate s.nextId f]).length + j := by
          simp only [List.length_append, List.length_cons, List.length_nil]
          omega
        rw [hidx]
        have h4 := ih4 j (by simpa using hj)
        simp only at h4
        rw [h4]
        have hid : s.nextId + 1 + j = s.nextId + (j + 1) := by omega
        rw [hid, List.getD_cons_succ]

/-- Claim C9: `addFiles` admits every submitted file: the queue grows by
exactly one entry per file, ids are assigned in submission order, a file
passing validation enters `QUEUED`, and a file failing validation is not
rejected but enters directly in `ERROR` state carrying the validator's
message. -/
theorem addFiles_admits_all (validate : BatchFile → Validation)
    (s : BatchState) (files : List BatchFile) :
    (addFiles validate s files).1.length = files.length ∧
    (addFiles validate s files).2.queue.length =
      s.queue.length + files.length ∧
    (∀ j, j < files.length →
      (addFiles validate s files).1.getD j 0 = s.nextId + j) ∧
    (∀ j, j < files.length →
      (addFiles validate s files).2.queue.getD (s.queue.length + j) default =
        admittedItem validate (s.nextId + j) (files.getD j ⟨"", 0⟩)) ∧
    (∀ j, j < files.length → (validate (files.getD j ⟨"", 0⟩)).valid = true →
      ((addFiles validate s files).2.queue.getD (s.queue.length + j)
        default).status = .queued) ∧
    (∀ j, j < files.length → (validate (files.getD j ⟨"", 0⟩)).valid = false →
      ((addFiles validate s files).2.queue.getD (s.queue.length + j)
        default).status = .error ∧
      ((addFiles validate s files).2.queue.getD (s.queue.length + j)
        default).error = (validate (files.getD j ⟨"", 0⟩)).error) := by
  obtain ⟨h1, h2, h3, h4⟩ := addFiles_spec_aux validate files s
  refine ⟨h1, h2, h3, h4, ?_, ?_⟩
  · intro j hj hvalid
    rw [h4 j hj]
    simp only [admittedItem]
    rw [if_pos hvalid]
  · intro j hj hvalid
    rw [h4 j hj]
    simp only [admittedItem]
    constructor
    · rw [if_neg (by rw [hvalid]; simp)]
    · rw [if_neg (by rw [hvalid]; simp)]

/-- Closed-form witness for `addFiles_admits_all`: a two-file submission
whose second file fails validation. -/
theorem addFiles_admits_all_witness :
    (addFiles
      (fun f => if f.size ≤ 10 then ⟨true, none⟩
        else ⟨false, some "too large"⟩)
      { queue := [], isProcessing := false, isCancelled := false,
        nextId := 0 } [⟨"a", 5⟩, ⟨"b", 20⟩]).1.length = 2 ∧
    ((addFiles
      (fun f => if f.size ≤ 10 then ⟨true, none⟩
        else ⟨false, some "too large"⟩)
      { queue := [], isProcessing := false, isCancelled := false,
        nextId := 0 } [⟨"a", 5⟩, ⟨"b", 20⟩]).2.queue.getD 0
        default).status = BatchItemStatus.queued ∧
    ((addFiles
      (fun f => if f.size ≤ 10 then ⟨true, none⟩
        else ⟨false, some "too large"⟩)
      { queue := [], isProcessing := false, isCancelled := false,
        nextId := 0 } [⟨"a", 5⟩, ⟨"b", 20⟩]).2.queue.getD 1
        default).error =
      ((fun (f : BatchFile) => if f.size ≤ 10 then (⟨true, none⟩ : Validation)
        else ⟨false, some "too large"⟩)
        (([⟨"a", 5⟩, ⟨"b", 20⟩] : List BatchFile).getD 1 ⟨"", 0⟩)).error := by
  have h := addFiles_admits_all
    (fun f => if f.size ≤ 10 then ⟨true, none⟩ else ⟨false, some "too large"⟩)
    { queue := [], isProcessing := false, isCancelled := false, nextId := 0 }
    [⟨"a", 5⟩, ⟨"b", 20⟩]
  exact ⟨h.1, h.2.2.2.2.1 0 (by decide) (by decide),
    (h.2.2.2.2.2 1 (by decide) (by decide)).2⟩

end GeminiWatermark
